import Mathlib

/-!
Verification of the HD sequential address-discovery engine
(`packages/wallet/src/services/AddressDiscovery/HDSequentialDiscovery.ts`).

The development shallowly embeds the source file:

* `addressHasTx` — the usage-oracle adapter (limit-1 / startAt-0 query,
  `totalResultCount > 0`);
* `discoverAddresses` (via the fuelled loop `discoverGo`) — the gap-limit
  chain scanner;
* `getPaymentCredential` — the credential extractor (switch over address
  kinds with a default throw);
* `makeProgrammableTokenAddress` — the programmable-token transform;
* `discover` — the orchestrator (canonical addresses, two scanner passes,
  dedup by encoded address, programmable-token map, final sort).

The `while (currentGap <= lookAheadCount)` loop of the source need not
terminate for an arbitrary oracle (an oracle reporting usage everywhere keeps
the loop alive forever), so the loop is embedded with an explicit fuel
parameter: `none` means the loop has not finished within `fuel` iterations,
`some` is the value actually returned by the source loop.

External capabilities that the source consumes but that are not part of this
file (the `Bip32Account` deriver, the `ChainHistoryProvider` transport, bech32
serialization and script hashing from `@cardano-sdk/core`) are modelled as
function parameters or, where a claim needs their documented behaviour, by
definitions whose doc comments start with `Modelled from the spec:`.
-/

namespace HDDiscovery

/-- Payment-chain kind of a derived address (`AddressType` in key-management). -/
inductive AddrChain
  | External
  | Internal
deriving DecidableEq

/-- `Cardano.CredentialType`. -/
inductive CredentialType
  | KeyHash
  | ScriptHash
deriving DecidableEq

/-- `Cardano.Credential`: a hash together with its credential type. -/
structure Credential where
  hash : String
  type : CredentialType
deriving DecidableEq

/-- A Shelley pointer (slot / txIndex / certIndex), used by pointer addresses. -/
structure ChainPointer where
  slot : Nat
  txIndex : Nat
  certIndex : Nat
deriving DecidableEq

/-- Modelled from the spec: `Cardano.Address` of `@cardano-sdk/core` (not under
`src/`) as the closed sum of Cardano address kinds.  Encoded address strings
are identified with their structural form; bech32/base58 encoding is injective,
so equality of encodings coincides with equality of these values. -/
inductive CAddress
  | base (networkId : Nat) (payment : Credential) (stake : Credential)
  | enterprise (networkId : Nat) (payment : Credential)
  | pointer (networkId : Nat) (payment : Credential) (ptr : ChainPointer)
  | reward (networkId : Nat) (stake : Credential)
  | byron (bytes : String)
deriving DecidableEq

/-- `Cardano.AddressType`: the tag returned by `Address.getType()`. -/
inductive CAddressKind
  | BasePaymentKeyStakeKey
  | BasePaymentScriptStakeKey
  | BasePaymentKeyStakeScript
  | BasePaymentScriptStakeScript
  | PointerKey
  | PointerScript
  | EnterpriseKey
  | EnterpriseScript
  | RewardKey
  | RewardScript
  | Byron
deriving DecidableEq

/-- `Address.getType()`: classify an address by kind, following the credential
types embedded in it. -/
def CAddress.getType : CAddress → CAddressKind
  | .base _ payment stake =>
    match payment.type, stake.type with
    | .KeyHash, .KeyHash => .BasePaymentKeyStakeKey
    | .ScriptHash, .KeyHash => .BasePaymentScriptStakeKey
    | .KeyHash, .ScriptHash => .BasePaymentKeyStakeScript
    | .ScriptHash, .ScriptHash => .BasePaymentScriptStakeScript
  | .enterprise _ payment =>
    match payment.type with
    | .KeyHash => .EnterpriseKey
    | .ScriptHash => .EnterpriseScript
  | .pointer _ payment _ =>
    match payment.type with
    | .KeyHash => .PointerKey
    | .ScriptHash => .PointerScript
  | .reward _ stake =>
    match stake.type with
    | .KeyHash => .RewardKey
    | .ScriptHash => .RewardScript
  | .byron _ => .Byron

/-- `Address.asEnterprise()`: the payment credential when the address is an
enterprise address, `none` (JS `undefined`) otherwise. -/
def CAddress.asEnterprise : CAddress → Option Credential
  | .enterprise _ payment => some payment
  | _ => none

/-- `Address.asBase()`: the payment and stake credentials when the address is a
base address, `none` (JS `undefined`) otherwise. -/
def CAddress.asBase : CAddress → Option (Credential × Credential)
  | .base _ payment stake => some (payment, stake)
  | _ => none

/-- `getPaymentCredential` (source lines 171-184): switch on `getType()`,
returning the payment credential for enterprise and base kinds and throwing
`Error('Unsupported address type')` for every other kind.  The JS non-null
assertions on `asEnterprise()`/`asBase()` are unreachable in the kinds where
they are taken; the model maps the (unreachable) null case to the same error. -/
def getPaymentCredential (userAddress : CAddress) : Except String Credential :=
  match userAddress.getType with
  | .EnterpriseKey | .EnterpriseScript =>
    match userAddress.asEnterprise with
    | some payment => .ok payment
    | none => .error "Unsupported address type"
  | .BasePaymentKeyStakeKey | .BasePaymentKeyStakeScript
  | .BasePaymentScriptStakeScript | .BasePaymentScriptStakeKey =>
    match userAddress.asBase with
    | some pair => .ok pair.1
    | none => .error "Unsupported address type"
  | _ => .error "Unsupported address type"

/-- The fixed, hard-coded programmable-logic-base Plutus V3 script bytes (hex),
copied verbatim from the source (lines 211-217). -/
def programmableLogicBaseBytes : String :=
  "58845882010000223253335734a666ae68cdd79aab9d3574200200629444cc8c8c8c0088cc0080080048c0088cc008008004894ccd55cf8008b0a999ab9a30033574200229444c008d5d1000919baf35573a0020086ae88004526163756646ae84c8d5d11aba2357446ae88d5d11aba20013235573c6ea8004004d5d0991aab9e37540020021"

/-- Modelled from the spec: `Serialization.Script.fromCore(...).hash()` of
`@cardano-sdk/core` (not under `src/`) computes an injective digest
(blake2b-224) of the script; modelled as a tagged copy of the script bytes,
which is injective and constant for the fixed script. -/
def scriptHashOf (bytes : String) : String :=
  "scriptHash:" ++ bytes

/-- `makeProgrammableTokenAddress` (source lines 205-231): extract the payment
credential of the user address, and build a base address on `networkId` whose
payment credential is the script-hash credential of the fixed programmable
logic script and whose stake credential is the user's payment credential.
A `getPaymentCredential` throw propagates (`Except.error`). -/
def makeProgrammableTokenAddress (userAddress : CAddress) (networkId : Nat) :
    Except String CAddress :=
  match getPaymentCredential userAddress with
  | .error e => .error e
  | .ok paymentCredential =>
    .ok (CAddress.base networkId
      { hash := scriptHashOf programmableLogicBaseBytes, type := CredentialType.ScriptHash }
      paymentCredential)

/-- `AccountKeyDerivationPath` restricted to the `index` component (the `role`
component is never read by the source file). -/
structure KeyPath where
  index : Nat
deriving DecidableEq

/-- `AccountAddressDerivationPath`: payment derivation path. -/
structure PaymentPath where
  index : Nat
  type : AddrChain
deriving DecidableEq

/-- `GroupedAddress` of `@cardano-sdk/key-management`.  The source's optional
`stakeKeyDerivationPath` is modelled as always present: every producer in the
source (the account deriver and the programmable-token map, which copies it)
sets it, and the final sort dereferences it unconditionally. -/
structure GroupedAddress where
  type : AddrChain
  index : Nat
  networkId : Nat
  accountIndex : Nat
  address : CAddress
  rewardAccount : String
  stakeKeyDerivationPath : KeyPath
deriving DecidableEq

/-- Pagination shape of a chain-history query. -/
structure Pagination where
  limit : Nat
  startAt : Nat
deriving DecidableEq

/-- The `ChainHistoryProvider` capability, restricted to the single operation
the source uses: `transactionsByAddresses` applied to an address list and a
pagination window, of which only `totalResultCount` is read. -/
def ChainHistoryProvider : Type :=
  List CAddress → Pagination → Nat

/-- The `Bip32Account.deriveAddress` capability: payment path and stake index
to a `GroupedAddress`. -/
def Bip32Account : Type :=
  PaymentPath → Nat → GroupedAddress

/-- `addressHasTx` (source lines 15-25): single query with `limit = 1`,
`startAt = 0`; the address has history iff `totalResultCount > 0`. -/
def addressHasTx (address : GroupedAddress) (chainHistoryProvider : ChainHistoryProvider) :
    Bool :=
  decide (0 < chainHistoryProvider [address.address] { limit := 1, startAt := 0 })

/-- Result of `getDeriveAddressArgs` in `discoverAddresses`. -/
structure DeriveAddressArgs where
  paymentKeyDerivationPath : PaymentPath
  stakeKeyDerivationIndex : Nat

/-- The body of the `while (currentGap <= lookAheadCount)` loop of
`discoverAddresses` (source lines 52-79), with explicit fuel.  `none` means the
loop has not returned within `fuel` iterations. -/
def discoverGo (account : Bip32Account) (chainHistoryProvider : ChainHistoryProvider)
    (lookAheadCount : Nat) (getDeriveAddressArgs : Nat → AddrChain → DeriveAddressArgs) :
    Nat → Nat → Nat → List GroupedAddress → Option (List GroupedAddress)
  | fuel, currentGap, currentIndex, addresses =>
    if currentGap ≤ lookAheadCount then
      match fuel with
      | 0 => none
      | fuel + 1 =>
        let externalAddressArgs := getDeriveAddressArgs currentIndex AddrChain.External
        let internalAddressArgs := getDeriveAddressArgs currentIndex AddrChain.Internal
        let externalAddress := account externalAddressArgs.paymentKeyDerivationPath
          externalAddressArgs.stakeKeyDerivationIndex
        let internalAddress := account internalAddressArgs.paymentKeyDerivationPath
          internalAddressArgs.stakeKeyDerivationIndex
        let externalHasTx := addressHasTx externalAddress chainHistoryProvider
        let internalHasTx := addressHasTx internalAddress chainHistoryProvider
        discoverGo account chainHistoryProvider lookAheadCount getDeriveAddressArgs fuel
          (if externalHasTx || internalHasTx then 0 else currentGap + 1)
          (currentIndex + 1)
          (addresses ++ ((if externalHasTx then [externalAddress] else []) ++
            (if internalHasTx then [internalAddress] else [])))
    else
      some addresses

/-- `discoverAddresses` (source lines 36-82): run the gap-limit loop from
`currentGap = 0`, `currentIndex = 0`, empty accumulator. -/
def discoverAddresses (account : Bip32Account) (chainHistoryProvider : ChainHistoryProvider)
    (lookAheadCount : Nat) (getDeriveAddressArgs : Nat → AddrChain → DeriveAddressArgs)
    (fuel : Nat) : Option (List GroupedAddress) :=
  discoverGo account chainHistoryProvider lookAheadCount getDeriveAddressArgs fuel 0 0 []

/-- lodash `uniqBy` with a `seen` accumulator: keep the first occurrence of
each key, preserving order. -/
def uniqByAux {α β : Type} [DecidableEq β] (key : α → β) (seen : List β) :
    List α → List α
  | [] => []
  | x :: xs =>
    if key x ∈ seen then uniqByAux key seen xs
    else x :: uniqByAux key (key x :: seen) xs

/-- lodash `uniqBy(list, key)`: first-occurrence deduplication by key. -/
def uniqBy {α β : Type} [DecidableEq β] (l : List α) (key : α → β) : List α :=
  uniqByAux key [] l

/-- `STAKE_KEY_INDEX_LOOKAHEAD` (source line 7). -/
def STAKE_KEY_INDEX_LOOKAHEAD : Nat := 5

/-- The canonical first addresses of `discover` (source lines 117-121): the
external address at payment index 0 / stake index 0 unconditionally, followed
by its internal sibling only when that sibling has transaction history. -/
def firstAddresses (manager : Bip32Account) (chainHistoryProvider : ChainHistoryProvider) :
    List GroupedAddress :=
  if addressHasTx (manager { index := 0, type := AddrChain.Internal } 0) chainHistoryProvider then
    [manager { index := 0, type := AddrChain.External } 0,
     manager { index := 0, type := AddrChain.Internal } 0]
  else
    [manager { index := 0, type := AddrChain.External } 0]

/-- `getDeriveAddressArgs` of the stake-chain pass (source lines 127-134):
payment index fixed at 0, stake index offset by one. -/
def stakeScanArgs (currentIndex : Nat) (type : AddrChain) : DeriveAddressArgs :=
  { paymentKeyDerivationPath := { index := 0, type := type },
    stakeKeyDerivationIndex := currentIndex + 1 }

/-- `getDeriveAddressArgs` of the payment-chain pass (source lines 141-148):
payment index offset by one, stake index fixed at 0. -/
def paymentScanArgs (currentIndex : Nat) (type : AddrChain) : DeriveAddressArgs :=
  { paymentKeyDerivationPath := { index := currentIndex + 1, type := type },
    stakeKeyDerivationIndex := 0 }

/-- The deduplicated organic address list of `discover` (source lines 117-151):
canonical addresses, stake-chain pass, payment-chain pass, concatenated and
deduplicated by encoded address, first occurrence kept. -/
def dedupAddresses (manager : Bip32Account) (chainHistoryProvider : ChainHistoryProvider)
    (lookAheadCount : Nat) (fuel : Nat) : Option (List GroupedAddress) :=
  match discoverAddresses manager chainHistoryProvider
      STAKE_KEY_INDEX_LOOKAHEAD stakeScanArgs fuel with
  | none => none
  | some stakeKeyAddresses =>
    match discoverAddresses manager chainHistoryProvider lookAheadCount paymentScanArgs fuel with
    | none => none
    | some paymentKeyAddresses =>
      some (uniqBy ((firstAddresses manager chainHistoryProvider ++ stakeKeyAddresses) ++
        paymentKeyAddresses) GroupedAddress.address)

/-- The `addresses.map((address, idx) => ...)` of source lines 154-161, with
the running position `idx` explicit.  A throw inside the mapped function
(`makeProgrammableTokenAddress`) aborts the whole map, as in JS. -/
def progTokenGo (lastIdx : Nat) : Nat → List GroupedAddress →
    Except String (List GroupedAddress)
  | _, [] => .ok []
  | idx, address :: rest =>
    match makeProgrammableTokenAddress address.address address.networkId with
    | .error e => .error e
    | .ok pa =>
      match progTokenGo lastIdx (idx + 1) rest with
      | .error e => .error e
      | .ok tail =>
        .ok ({ address with index := lastIdx + idx + 1, address := pa } :: tail)

/-- The programmable-token list of `discover` (source lines 153-161): `lastIdx`
is the `index` of the last element of the deduplicated list
(`addresses[addresses.length - 1].index`; the list is never empty in the
source), and each deduplicated address at position `idx` is copied with
`index := lastIdx + idx + 1` and its programmable-token address. -/
def progTokenAddresses (addresses : List GroupedAddress) :
    Except String (List GroupedAddress) :=
  progTokenGo ((addresses.getLast?).elim 0 GroupedAddress.index) 0 addresses

/-- The comparator of the final sort (source lines 165-167), as a boolean
total preorder: `a` precedes `b` when `a.index - b.index || a.stake - b.stake`
is non-positive. -/
def sortLE (a b : GroupedAddress) : Bool :=
  decide (a.index < b.index ∨
    (a.index = b.index ∧ a.stakeKeyDerivationPath.index ≤ b.stakeKeyDerivationPath.index))

/-- `HDSequentialDiscovery.discover` (source lines 116-168).  The outer
`Option` is the fuel of the two scanner loops; the inner `Except` is a thrown
`Unsupported address type` error escaping the programmable-token map.  The
final sort is a stable sort by `(index, stakeKeyDerivationPath.index)`,
matching the (stable) JS `Array.prototype.sort`. -/
def discover (manager : Bip32Account) (chainHistoryProvider : ChainHistoryProvider)
    (lookAheadCount : Nat) (fuel : Nat) :
    Option (Except String (List GroupedAddress)) :=
  match dedupAddresses manager chainHistoryProvider lookAheadCount fuel with
  | none => none
  | some addresses =>
    some (match progTokenAddresses addresses with
      | .error e => .error e
      | .ok progTokenAddrs => .ok ((addresses ++ progTokenAddrs).mergeSort sortLE))

/-! ### Specification-side view of one scanner pass -/

/-- The address probed by a scanner pass at scan index `i` for chain kind `t`. -/
def addrAt (account : Bip32Account) (args : Nat → AddrChain → DeriveAddressArgs)
    (i : Nat) (t : AddrChain) : GroupedAddress :=
  account (args i t).paymentKeyDerivationPath (args i t).stakeKeyDerivationIndex

/-- Whether the scanner pass observes usage (on either chain kind) at scan
index `i`. -/
def usedAt (account : Bip32Account) (chainHistoryProvider : ChainHistoryProvider)
    (args : Nat → AddrChain → DeriveAddressArgs) (i : Nat) : Bool :=
  addressHasTx (addrAt account args i AddrChain.External) chainHistoryProvider ||
    addressHasTx (addrAt account args i AddrChain.Internal) chainHistoryProvider

/-- The addresses the scanner pass appends at scan index `i`: the external
address when used, then the internal address when used. -/
def hitsAt (account : Bip32Account) (chainHistoryProvider : ChainHistoryProvider)
    (args : Nat → AddrChain → DeriveAddressArgs) (i : Nat) : List GroupedAddress :=
  (if addressHasTx (addrAt account args i AddrChain.External) chainHistoryProvider then
    [addrAt account args i AddrChain.External] else []) ++
  (if addressHasTx (addrAt account args i AddrChain.Internal) chainHistoryProvider then
    [addrAt account args i AddrChain.Internal] else [])

/-- The value of the scanner's `currentGap` after the loop has processed scan
indices `0, …, n-1`: the number of trailing consecutive unused indices. -/
def gapAfter (account : Bip32Account) (chainHistoryProvider : ChainHistoryProvider)
    (args : Nat → AddrChain → DeriveAddressArgs) : Nat → Nat
  | 0 => 0
  | n + 1 =>
    if usedAt account chainHistoryProvider args n then 0
    else gapAfter account chainHistoryProvider args n + 1

/-- Modelled from the spec: the `Bip32Account.deriveAddress` capability of
`@cardano-sdk/key-management` (not under `src/`) populates the derived
`GroupedAddress` from its arguments — `index` and `type` from the payment
derivation path, `stakeKeyDerivationPath.index` from the stake index (spec §3
and §8: the canonical derivation at payment index 0 / stake index 0 yields an
entry with `index = 0` and `stakeKeyDerivationPath.index = 0`). -/
def WellFormedAccount (account : Bip32Account) : Prop :=
  ∀ p s, (account p s).index = p.index ∧ (account p s).type = p.type ∧
    (account p s).stakeKeyDerivationPath.index = s

/-- The largest `index` field occurring in a list of grouped addresses
(0 for the empty list). -/
def maxIndex (l : List GroupedAddress) : Nat :=
  (l.map GroupedAddress.index).foldr max 0

/-! ### Concrete fixtures for witnesses and counterexamples -/

/-- Chain-kind tag used in the concrete account fixture's credential hashes. -/
def chainTag : AddrChain → String
  | .External => "e"
  | .Internal => "i"

/-- A concrete account fixture: a deterministic deriver producing, for each
(payment index, chain kind, stake index), a distinct key/key base address whose
credential hashes spell out the derivation arguments. -/
def testAccount : Bip32Account := fun p s =>
  { type := p.type
    index := p.index
    networkId := 0
    accountIndex := 0
    address := CAddress.base 0
      { hash := "payment:" ++ toString p.index ++ chainTag p.type,
        type := CredentialType.KeyHash }
      { hash := "stake:" ++ toString s, type := CredentialType.KeyHash }
    rewardAccount := "stake:" ++ toString s
    stakeKeyDerivationPath := { index := s } }

/-- A provider fixture reporting no transaction history for any query. -/
def emptyProvider : ChainHistoryProvider := fun _ _ => 0

/-- A default `GroupedAddress` used with `List.getD`. -/
def dummyGA : GroupedAddress :=
  { type := AddrChain.External
    index := 0
    networkId := 0
    accountIndex := 0
    address := CAddress.byron ""
    rewardAccount := ""
    stakeKeyDerivationPath := { index := 0 } }

/-- Provider fixture for the payment-chain boundary test: exactly the external
base addresses whose payment credential index is 0, 1, 2, 5 or 10 (with stake
credential index 0) have transaction history. -/
def boundaryProvider : ChainHistoryProvider := fun addrs _ =>
  match addrs with
  | [CAddress.base 0 p s] =>
    if s.hash = "stake:0" ∧ p.type = CredentialType.KeyHash ∧
        (p.hash = "payment:0e" ∨ p.hash = "payment:1e" ∨ p.hash = "payment:2e" ∨
         p.hash = "payment:5e" ∨ p.hash = "payment:10e") then 1 else 0
  | _ => 0

/-- The result of the payment-chain pass under `boundaryProvider` with
lookAheadCount 3: the external addresses at payment indices 1, 2 and 5. -/
def boundaryScanResult : List GroupedAddress :=
  [testAccount { index := 1, type := AddrChain.External } 0,
   testAccount { index := 2, type := AddrChain.External } 0,
   testAccount { index := 5, type := AddrChain.External } 0]

/-- Provider fixture under which exactly one stake-chain sibling (payment
index 0, external, stake index 1) of the canonical address has history.  Both
the canonical address and this sibling share the payment credential
`payment:0e`, so their programmable-token addresses coincide. -/
def dupProvider : ChainHistoryProvider := fun addrs _ =>
  if addrs = [(testAccount { index := 0, type := AddrChain.External } 1).address] then 1
  else 0

/-- The programmable-token base address derived from payment credential
`payment:0e` on network 0. -/
def progZeroAddress : CAddress :=
  CAddress.base 0
    { hash := scriptHashOf programmableLogicBaseBytes, type := CredentialType.ScriptHash }
    { hash := "payment:0e", type := CredentialType.KeyHash }

/-- The value `discover` returns under `dupProvider` (computed): the canonical
address, the used stake-1 sibling, and their two programmable-token copies —
which carry the SAME encoded address `progZeroAddress`. -/
def dupResult : List GroupedAddress :=
  [testAccount { index := 0, type := AddrChain.External } 0,
   testAccount { index := 0, type := AddrChain.External } 1,
   { testAccount { index := 0, type := AddrChain.External } 0 with
      index := 1, address := progZeroAddress },
   { testAccount { index := 0, type := AddrChain.External } 1 with
      index := 2, address := progZeroAddress }]

/-- The programmable-token copy of the canonical test address, as produced by a
discovery run whose deduplicated list is exactly the canonical address. -/
def progOfFirst : GroupedAddress :=
  { testAccount { index := 0, type := AddrChain.External } 0 with
      index := 1, address := progZeroAddress }

/-- Decidable equality for `Except` results, used to evaluate concrete
discovery runs. -/
instance : DecidableEq (Except String (List GroupedAddress)) := fun a b =>
  match a, b with
  | Except.ok x, Except.ok y =>
    if h : x = y then isTrue (by rw [h]) else isFalse (fun hc => h (Except.ok.inj hc))
  | Except.error x, Except.error y =>
    if h : x = y then isTrue (by rw [h]) else isFalse (fun hc => h (Except.error.inj hc))
  | Except.ok _, Except.error _ => isFalse (fun hc => Except.noConfusion hc)
  | Except.error _, Except.ok _ => isFalse (fun hc => Except.noConfusion hc)

/-- The six address kinds supported by `getPaymentCredential`. -/
def supportedKinds : List CAddressKind :=
  [CAddressKind.EnterpriseKey, CAddressKind.EnterpriseScript,
   CAddressKind.BasePaymentKeyStakeKey, CAddressKind.BasePaymentKeyStakeScript,
   CAddressKind.BasePaymentScriptStakeKey, CAddressKind.BasePaymentScriptStakeScript]

/-! ### Equations of the scanner loop -/

theorem discoverGo_exit (account : Bip32Account) (provider : ChainHistoryProvider)
    (look : Nat) (args : Nat → AddrChain → DeriveAddressArgs)
    (fuel gap k : Nat) (acc : List GroupedAddress) (h : look < gap) :
    discoverGo account provider look args fuel gap k acc = some acc := by
  unfold discoverGo
  rw [if_neg (by omega)]

theorem discoverGo_fuel_zero (account : Bip32Account) (provider : ChainHistoryProvider)
    (look : Nat) (args : Nat → AddrChain → DeriveAddressArgs)
    (gap k : Nat) (acc : List GroupedAddress) (h : gap ≤ look) :
    discoverGo account provider look args 0 gap k acc = none := by
  unfold discoverGo
  rw [if_pos h]

theorem discoverGo_step (account : Bip32Account) (provider : ChainHistoryProvider)
    (look : Nat) (args : Nat → AddrChain → DeriveAddressArgs)
    (fuel gap k : Nat) (acc : List GroupedAddress) (h : gap ≤ look) :
    discoverGo account provider look args (fuel + 1) gap k acc =
      discoverGo account provider look args fuel
        (if usedAt account provider args k then 0 else gap + 1) (k + 1)
        (acc ++ hitsAt account provider args k) := by
  conv_lhs => rw [discoverGo]
  rw [if_pos h]
  rfl

/-! ### The running gap counter -/

theorem gapAfter_zero (account : Bip32Account) (provider : ChainHistoryProvider)
    (args : Nat → AddrChain → DeriveAddressArgs) :
    gapAfter account provider args 0 = 0 := rfl

theorem gapAfter_succ (account : Bip32Account) (provider : ChainHistoryProvider)
    (args : Nat → AddrChain → DeriveAddressArgs) (n : Nat) :
    gapAfter account provider args (n + 1) =
      if usedAt account provider args n then 0 else gapAfter account provider args n + 1 := rfl

theorem gapAfter_le (account : Bip32Account) (provider : ChainHistoryProvider)
    (args : Nat → AddrChain → DeriveAddressArgs) :
    ∀ n, gapAfter account provider args n ≤ n := by
  intro n
  induction n with
  | zero => exact Nat.le_refl 0
  | succ n ih =>
    rw [gapAfter_succ]
    split <;> omega

theorem gapAfter_succ_le (account : Bip32Account) (provider : ChainHistoryProvider)
    (args : Nat → AddrChain → DeriveAddressArgs) (n : Nat) :
    gapAfter account provider args (n + 1) ≤ gapAfter account provider args n + 1 := by
  rw [gapAfter_succ]
  split <;> omega

theorem gapAfter_unused (account : Bip32Account) (provider : ChainHistoryProvider)
    (args : Nat → AddrChain → DeriveAddressArgs) :
    ∀ n j, n - gapAfter account provider args n ≤ j → j < n →
      usedAt account provider args j = false := by
  intro n
  induction n with
  | zero => intro j _ h; omega
  | succ n ih =>
    intro j h1 h2
    by_cases hu : usedAt account provider args n
    · rw [gapAfter_succ, if_pos hu] at h1
      omega
    · rw [gapAfter_succ, if_neg hu] at h1
      rcases Nat.lt_succ_iff_lt_or_eq.mp h2 with hj | hj
      · have := gapAfter_le account provider args n
        exact ih j (by omega) hj
      · subst hj
        exact Bool.eq_false_iff.mpr hu

theorem gapAfter_last_used (account : Bip32Account) (provider : ChainHistoryProvider)
    (args : Nat → AddrChain → DeriveAddressArgs) :
    ∀ n, gapAfter account provider args n = n ∨
      usedAt account provider args (n - gapAfter account provider args n - 1) = true := by
  intro n
  induction n with
  | zero => exact Or.inl rfl
  | succ n ih =>
    by_cases hu : usedAt account provider args n
    · right
      rw [gapAfter_succ, if_pos hu]
      simpa using hu
    · rw [gapAfter_succ, if_neg hu]
      rcases ih with h | h
      · exact Or.inl (by omega)
      · right
        have := gapAfter_le account provider args n
        have heq : n + 1 - (gapAfter account provider args n + 1) - 1 =
            n - gapAfter account provider args n - 1 := by omega
        rw [heq]
        exact h

/-! ### Characterization of a terminating scan -/

theorem discoverGo_char (account : Bip32Account) (provider : ChainHistoryProvider)
    (look : Nat) (args : Nat → AddrChain → DeriveAddressArgs) (N : Nat)
    (hstop : look < gapAfter account provider args N)
    (hmin : ∀ m, m < N → gapAfter account provider args m ≤ look) :
    ∀ fuel k acc, k ≤ N → N ≤ k + fuel →
      discoverGo account provider look args fuel (gapAfter account provider args k) k acc =
        some (acc ++ (List.range' k (N - k)).flatMap (hitsAt account provider args)) := by
  intro fuel
  induction fuel with
  | zero =>
    intro k acc hk hN
    have hkN : k = N := by omega
    subst hkN
    rw [discoverGo_exit account provider look args 0 _ k acc hstop]
    simp
  | succ fuel ih =>
    intro k acc hk hN
    rcases Nat.eq_or_lt_of_le hk with hkN | hkN
    · subst hkN
      rw [discoverGo_exit account provider look args (fuel + 1) _ k acc hstop]
      simp
    · have hgap := hmin k hkN
      rw [discoverGo_step account provider look args fuel _ k acc hgap]
      have hgap1 : (if usedAt account provider args k then 0
          else gapAfter account provider args k + 1) =
          gapAfter account provider args (k + 1) := (gapAfter_succ account provider args k).symm
      rw [hgap1, ih (k + 1) (acc ++ hitsAt account provider args k) hkN (by omega)]
      have hNk : N - k = (N - (k + 1)) + 1 := by omega
      rw [hNk, List.range'_succ]
      simp [List.append_assoc]

theorem discoverGo_out_of_fuel (account : Bip32Account) (provider : ChainHistoryProvider)
    (look : Nat) (args : Nat → AddrChain → DeriveAddressArgs) (N : Nat)
    (hmin : ∀ m, m < N → gapAfter account provider args m ≤ look) :
    ∀ fuel k acc, k + fuel < N →
      discoverGo account provider look args fuel (gapAfter account provider args k) k acc =
        none := by
  intro fuel
  induction fuel with
  | zero =>
    intro k acc h
    exact discoverGo_fuel_zero account provider look args _ k acc (hmin k (by omega))
  | succ fuel ih =>
    intro k acc h
    rw [discoverGo_step account provider look args fuel _ k acc (hmin k (by omega))]
    rw [(gapAfter_succ account provider args k).symm]
    exact ih (k + 1) _ (by omega)

theorem discoverAddresses_char (account : Bip32Account) (provider : ChainHistoryProvider)
    (look : Nat) (args : Nat → AddrChain → DeriveAddressArgs) (N fuel : Nat)
    (hstop : look < gapAfter account provider args N)
    (hmin : ∀ m, m < N → gapAfter account provider args m ≤ look)
    (hfuel : N ≤ fuel) :
    discoverAddresses account provider look args fuel =
      some ((List.range N).flatMap (hitsAt account provider args)) := by
  unfold discoverAddresses
  have h0 : gapAfter account provider args 0 = 0 := rfl
  have := discoverGo_char account provider look args N hstop hmin fuel 0 []
    (Nat.zero_le N) (by omega)
  rw [h0] at this
  rw [this]
  simp [List.range_eq_range']

/-! ### Membership and monotonicity of the scan results -/

theorem mem_hitsAt (account : Bip32Account) (provider : ChainHistoryProvider)
    (args : Nat → AddrChain → DeriveAddressArgs) (k : Nat) (a : GroupedAddress)
    (h : a ∈ hitsAt account provider args k) :
    ∃ t, a = addrAt account args k t ∧ addressHasTx a provider = true := by
  unfold hitsAt at h
  rcases List.mem_append.mp h with h1 | h1
  · refine ⟨AddrChain.External, ?_⟩
    split at h1
    · rcases List.mem_singleton.mp h1 with rfl
      exact ⟨rfl, by assumption⟩
    · cases h1
  · refine ⟨AddrChain.Internal, ?_⟩
    split at h1
    · rcases List.mem_singleton.mp h1 with rfl
      exact ⟨rfl, by assumption⟩
    · cases h1

theorem discoverGo_mem (account : Bip32Account) (provider : ChainHistoryProvider)
    (look : Nat) (args : Nat → AddrChain → DeriveAddressArgs) :
    ∀ fuel gap k acc res,
      discoverGo account provider look args fuel gap k acc = some res →
      ∀ a ∈ res, a ∈ acc ∨ ∃ i t, k ≤ i ∧ a = addrAt account args i t ∧
        addressHasTx a provider = true := by
  intro fuel
  induction fuel with
  | zero =>
    intro gap k acc res h a ha
    by_cases hg : gap ≤ look
    · rw [discoverGo_fuel_zero account provider look args gap k acc hg] at h
      cases h
    · rw [discoverGo_exit account provider look args 0 gap k acc (by omega)] at h
      cases h
      exact Or.inl ha
  | succ fuel ih =>
    intro gap k acc res h a ha
    by_cases hg : gap ≤ look
    · rw [discoverGo_step account provider look args fuel gap k acc hg] at h
      rcases ih _ _ _ _ h a ha with hacc | ⟨i, t, hi, rfl, ht⟩
      · rcases List.mem_append.mp hacc with h1 | h2
        · exact Or.inl h1
        · rcases mem_hitsAt account provider args k a h2 with ⟨t, rfl, ht⟩
          exact Or.inr ⟨k, t, Nat.le_refl k, rfl, ht⟩
      · exact Or.inr ⟨i, t, by omega, rfl, ht⟩
    · rw [discoverGo_exit account provider look args _ gap k acc (by omega)] at h
      cases h
      exact Or.inl ha

theorem discoverAddresses_mem (account : Bip32Account) (provider : ChainHistoryProvider)
    (look : Nat) (args : Nat → AddrChain → DeriveAddressArgs) (fuel : Nat)
    (res : List GroupedAddress)
    (h : discoverAddresses account provider look args fuel = some res) :
    ∀ a ∈ res, ∃ i t, a = addrAt account args i t ∧ addressHasTx a provider = true := by
  intro a ha
  rcases discoverGo_mem account provider look args fuel 0 0 [] res h a ha with hacc | ⟨i, t, _, rfl, ht⟩
  · cases hacc
  · exact ⟨i, t, rfl, ht⟩

theorem hitsAt_index (account : Bip32Account) (provider : ChainHistoryProvider)
    (args : Nat → AddrChain → DeriveAddressArgs) (idxF : Nat → Nat)
    (hidx : ∀ i t, (addrAt account args i t).index = idxF i) (k : Nat) :
    ∀ a ∈ hitsAt account provider args k, a.index = idxF k := by
  intro a ha
  rcases mem_hitsAt account provider args k a ha with ⟨t, rfl, -⟩
  exact hidx k t

theorem discoverGo_pairwise (account : Bip32Account) (provider : ChainHistoryProvider)
    (look : Nat) (args : Nat → AddrChain → DeriveAddressArgs) (idxF : Nat → Nat)
    (hidx : ∀ i t, (addrAt account args i t).index = idxF i)
    (hmono : ∀ i j, i ≤ j → idxF i ≤ idxF j) :
    ∀ fuel gap k acc res,
      (∀ a ∈ acc, a.index ≤ idxF k) →
      acc.Pairwise (fun a b => a.index ≤ b.index) →
      discoverGo account provider look args fuel gap k acc = some res →
      res.Pairwise (fun a b => a.index ≤ b.index) := by
  intro fuel
  induction fuel with
  | zero =>
    intro gap k acc res hbound hp h
    by_cases hg : gap ≤ look
    · rw [discoverGo_fuel_zero account provider look args gap k acc hg] at h
      cases h
    · rw [discoverGo_exit account provider look args 0 gap k acc (by omega)] at h
      cases h
      exact hp
  | succ fuel ih =>
    intro gap k acc res hbound hp h
    by_cases hg : gap ≤ look
    · rw [discoverGo_step account provider look args fuel gap k acc hg] at h
      refine ih _ (k + 1) (acc ++ hitsAt account provider args k) res ?_ ?_ h
      · intro a ha
        rcases List.mem_append.mp ha with h1 | h2
        · exact Nat.le_trans (hbound a h1) (hmono k (k + 1) (by omega))
        · rw [hitsAt_index account provider args idxF hidx k a h2]
          exact hmono k (k + 1) (by omega)
      · rw [List.pairwise_append]
        refine ⟨hp, ?_, ?_⟩
        · refine List.pairwise_of_forall_mem_list ?_
          intro a ha b hb
          rw [hitsAt_index account provider args idxF hidx k a ha,
            hitsAt_index account provider args idxF hidx k b hb]
        · intro a ha b hb
          rw [hitsAt_index account provider args idxF hidx k b hb]
          exact hbound a ha
    · rw [discoverGo_exit account provider look args _ gap k acc (by omega)] at h
      cases h
      exact hp

theorem discoverAddresses_pairwise (account : Bip32Account) (provider : ChainHistoryProvider)
    (look : Nat) (args : Nat → AddrChain → DeriveAddressArgs) (idxF : Nat → Nat)
    (hidx : ∀ i t, (addrAt account args i t).index = idxF i)
    (hmono : ∀ i j, i ≤ j → idxF i ≤ idxF j) (fuel : Nat) (res : List GroupedAddress)
    (h : discoverAddresses account provider look args fuel = some res) :
    res.Pairwise (fun a b => a.index ≤ b.index) :=
  discoverGo_pairwise account provider look args idxF hidx hmono fuel 0 0 [] res
    (by intro a ha; cases ha) (List.Pairwise.nil) h

/-! ### Deduplication -/

theorem uniqByAux_sublist {α β : Type} [DecidableEq β] (key : α → β) :
    ∀ (l : List α) (seen : List β), List.Sublist (uniqByAux key seen l) l := by
  intro l
  induction l with
  | nil => intro seen; exact List.Sublist.refl []
  | cons x xs ih =>
    intro seen
    unfold uniqByAux
    split
    · exact (ih seen).cons x
    · exact (ih (key x :: seen)).cons₂ x

theorem uniqBy_sublist {α β : Type} [DecidableEq β] (key : α → β) (l : List α) :
    List.Sublist (uniqBy l key) l :=
  uniqByAux_sublist key l []

theorem uniqByAux_pairwise {α β : Type} [DecidableEq β] (key : α → β) :
    ∀ (l : List α) (seen : List β),
      (∀ a ∈ uniqByAux key seen l, key a ∉ seen) ∧
      (uniqByAux key seen l).Pairwise (fun a b => key a ≠ key b) := by
  intro l
  induction l with
  | nil => intro seen; exact ⟨(by intro a ha; cases ha), List.Pairwise.nil⟩
  | cons x xs ih =>
    intro seen
    unfold uniqByAux
    split
    · exact ih seen
    · rename_i hx
      constructor
      · intro a ha
        rcases List.mem_cons.mp ha with rfl | ha
        · exact hx
        · have := (ih (key x :: seen)).1 a ha
          intro hc
          exact this (List.mem_cons_of_mem _ hc)
      · rw [List.pairwise_cons]
        refine ⟨?_, (ih (key x :: seen)).2⟩
        intro b hb
        have := (ih (key x :: seen)).1 b hb
        intro hc
        exact this (by rw [← hc]; exact List.mem_cons_self _ _)

theorem uniqBy_pairwise {α β : Type} [DecidableEq β] (key : α → β) (l : List α) :
    (uniqBy l key).Pairwise (fun a b => key a ≠ key b) :=
  (uniqByAux_pairwise key l []).2

theorem uniqBy_cons {α β : Type} [DecidableEq β] (key : α → β) (x : α) (l : List α) :
    uniqBy (x :: l) key = x :: uniqByAux key [key x] l := rfl

theorem pairwise_key_count_le_one {α β : Type} [DecidableEq α] (key : α → β) :
    ∀ l : List α, l.Pairwise (fun a b => key a ≠ key b) → ∀ x, l.count x ≤ 1 := by
  intro l
  induction l with
  | nil => intro _ x; simp
  | cons y ys ih =>
    intro hp x
    rcases List.pairwise_cons.mp hp with ⟨hy, hys⟩
    by_cases hxy : x = y
    · subst hxy
      have hnot : x ∉ ys := by
        intro hc
        exact hy x hc rfl
      rw [List.count_cons_self, List.count_eq_zero.mpr hnot]
    · rw [List.count_cons_of_ne hxy]
      exact ih hys x

/-! ### Last element and maximal index -/

theorem pairwise_le_last (l : List GroupedAddress)
    (hp : l.Pairwise (fun a b => a.index ≤ b.index)) :
    ∀ a ∈ l, a.index ≤ (l.getLast?).elim 0 GroupedAddress.index := by
  induction l with
  | nil => intro a ha; cases ha
  | cons x xs ih =>
    intro a ha
    rcases List.pairwise_cons.mp hp with ⟨hx, hxs⟩
    cases xs with
    | nil =>
      rcases List.mem_singleton.mp ha with rfl
      exact Nat.le_refl _
    | cons y ys =>
      rw [List.getLast?_cons_cons]
      rcases List.mem_cons.mp ha with rfl | ha
      · have hne : (y :: ys) ≠ [] := by intro h; cases h
        have hlast := List.getLast?_eq_getLast (y :: ys) hne
        rw [hlast]
        exact Nat.le_trans (hx _ (List.getLast_mem hne)) (Nat.le_refl _)
      · exact ih hxs a ha

theorem maxIndex_nil : maxIndex [] = 0 := rfl

theorem maxIndex_cons (x : GroupedAddress) (l : List GroupedAddress) :
    maxIndex (x :: l) = max x.index (maxIndex l) := rfl

theorem le_maxIndex (l : List GroupedAddress) : ∀ a ∈ l, a.index ≤ maxIndex l := by
  induction l with
  | nil => intro a ha; cases ha
  | cons x xs ih =>
    intro a ha
    rw [maxIndex_cons]
    rcases List.mem_cons.mp ha with rfl | ha
    · exact Nat.le_max_left _ _
    · exact Nat.le_trans (ih a ha) (Nat.le_max_right _ _)

theorem maxIndex_le (l : List GroupedAddress) (B : Nat) (h : ∀ a ∈ l, a.index ≤ B) :
    maxIndex l ≤ B := by
  induction l with
  | nil => exact Nat.zero_le B
  | cons x xs ih =>
    rw [maxIndex_cons]
    exact Nat.max_le.mpr ⟨h x (List.mem_cons_self x xs),
      ih (fun a ha => h a (List.mem_cons_of_mem x ha))⟩

theorem last_eq_maxIndex (l : List GroupedAddress) (hne : l ≠ [])
    (hp : l.Pairwise (fun a b => a.index ≤ b.index)) :
    (l.getLast?).elim 0 GroupedAddress.index = maxIndex l := by
  apply Nat.le_antisymm
  · rw [List.getLast?_eq_getLast l hne]
    exact le_maxIndex l _ (List.getLast_mem hne)
  · exact maxIndex_le l _ (pairwise_le_last l hp)

/-! ### The canonical first addresses -/

theorem firstAddresses_eq (manager : Bip32Account) (provider : ChainHistoryProvider) :
    ∃ rest, firstAddresses manager provider =
      manager { index := 0, type := AddrChain.External } 0 :: rest := by
  unfold firstAddresses
  split
  · exact ⟨[manager { index := 0, type := AddrChain.Internal } 0], rfl⟩
  · exact ⟨[], rfl⟩

theorem mem_firstAddresses (manager : Bip32Account) (provider : ChainHistoryProvider)
    (a : GroupedAddress) (h : a ∈ firstAddresses manager provider) :
    a = manager { index := 0, type := AddrChain.External } 0 ∨
    a = manager { index := 0, type := AddrChain.Internal } 0 := by
  unfold firstAddresses at h
  split at h
  · rcases List.mem_cons.mp h with rfl | h
    · exact Or.inl rfl
    · exact Or.inr (List.mem_singleton.mp h)
  · exact Or.inl (List.mem_singleton.mp h)

/-! ### Inversion of the orchestrator -/

theorem dedupAddresses_inv (manager : Bip32Account) (provider : ChainHistoryProvider)
    (look fuel : Nat) (addrs : List GroupedAddress)
    (h : dedupAddresses manager provider look fuel = some addrs) :
    ∃ st pay,
      discoverAddresses manager provider STAKE_KEY_INDEX_LOOKAHEAD stakeScanArgs fuel =
        some st ∧
      discoverAddresses manager provider look paymentScanArgs fuel = some pay ∧
      addrs = uniqBy ((firstAddresses manager provider ++ st) ++ pay)
        GroupedAddress.address := by
  unfold dedupAddresses at h
  split at h
  · cases h
  · rename_i st hst
    split at h
    · cases h
    · rename_i pay hpay
      exact ⟨st, pay, hst, hpay, (Option.some.inj h).symm⟩

theorem discover_inv (manager : Bip32Account) (provider : ChainHistoryProvider)
    (look fuel : Nat) (res : List GroupedAddress)
    (h : discover manager provider look fuel = some (Except.ok res)) :
    ∃ addrs prog,
      dedupAddresses manager provider look fuel = some addrs ∧
      progTokenAddresses addrs = Except.ok prog ∧
      res = (addrs ++ prog).mergeSort sortLE := by
  unfold discover at h
  split at h
  · cases h
  · rename_i addrs haddrs
    rcases Option.some.inj h with h2
    split at h2
    · cases h2
    · rename_i prog hprog
      exact ⟨addrs, prog, haddrs, hprog, (Except.ok.inj h2).symm⟩

theorem discover_eq_of_parts (manager : Bip32Account) (provider : ChainHistoryProvider)
    (look fuel : Nat) (addrs prog : List GroupedAddress)
    (h1 : dedupAddresses manager provider look fuel = some addrs)
    (h2 : progTokenAddresses addrs = Except.ok prog) :
    discover manager provider look fuel =
      some (Except.ok ((addrs ++ prog).mergeSort sortLE)) := by
  unfold discover
  rw [h1]
  show some (match progTokenAddresses addrs with
    | Except.error e => Except.error e
    | Except.ok progTokenAddrs =>
      Except.ok ((addrs ++ progTokenAddrs).mergeSort sortLE)) = _
  rw [h2]

/-! ### The sort comparator -/

theorem sortLE_trans (a b c : GroupedAddress) (h1 : sortLE a b) (h2 : sortLE b c) :
    sortLE a c := by
  simp only [sortLE, decide_eq_true_eq] at h1 h2 ⊢
  omega

theorem sortLE_total (a b : GroupedAddress) : sortLE a b || sortLE b a := by
  simp only [sortLE, Bool.or_eq_true, decide_eq_true_eq]
  omega

/-! ### The programmable-token map -/

theorem progTokenGo_char (lastIdx : Nat) :
    ∀ (l : List GroupedAddress) (idx : Nat) (r : List GroupedAddress),
      progTokenGo lastIdx idx l = Except.ok r →
      r.length = l.length ∧
      ∀ k, k < l.length →
        ∃ pa, makeProgrammableTokenAddress (l.getD k dummyGA).address
            (l.getD k dummyGA).networkId = Except.ok pa ∧
          r.getD k dummyGA =
            { l.getD k dummyGA with index := lastIdx + (idx + k) + 1, address := pa } := by
  intro l
  induction l with
  | nil =>
    intro idx r h
    cases h
    exact ⟨rfl, by intro k hk; simp at hk⟩
  | cons a l ih =>
    intro idx r h
    unfold progTokenGo at h
    split at h
    · cases h
    · rename_i pa hpa
      split at h
      · cases h
      · rename_i tail htail
        cases h
        rcases ih (idx + 1) tail htail with ⟨hlen, hget⟩
        constructor
        · simp [hlen]
        · intro k hk
          cases k with
          | zero => exact ⟨pa, hpa, rfl⟩
          | succ k =>
            rcases hget k (by simpa using hk) with ⟨pb, hpb, hr⟩
            refine ⟨pb, hpb, ?_⟩
            have harith : lastIdx + (idx + 1 + k) + 1 = lastIdx + (idx + (k + 1)) + 1 := by
              omega
            rw [← harith]
            exact hr

theorem progTokenGo_index_lower (lastIdx : Nat) :
    ∀ (l : List GroupedAddress) (idx : Nat) (r : List GroupedAddress),
      progTokenGo lastIdx idx l = Except.ok r →
      ∀ p ∈ r, lastIdx + idx + 1 ≤ p.index := by
  intro l
  induction l with
  | nil =>
    intro idx r h p hp
    cases h
    cases hp
  | cons a l ih =>
    intro idx r h p hp
    unfold progTokenGo at h
    split at h
    · cases h
    · split at h
      · cases h
      · rename_i tail htail
        cases h
        rcases List.mem_cons.mp hp with rfl | hp
        · exact Nat.le_refl _
        · exact Nat.le_trans (by omega) (ih (idx + 1) tail htail p hp)

/-! ### The credential extractor -/

theorem getPaymentCredential_base (n : Nat) (p s : Credential) :
    getPaymentCredential (CAddress.base n p s) = Except.ok p := by
  rcases p with ⟨ph, pt⟩
  rcases s with ⟨sh, st⟩
  cases pt <;> cases st <;> rfl

theorem getPaymentCredential_enterprise (n : Nat) (p : Credential) :
    getPaymentCredential (CAddress.enterprise n p) = Except.ok p := by
  rcases p with ⟨ph, pt⟩
  cases pt <;> rfl

theorem getPaymentCredential_pointer (n : Nat) (p : Credential) (ptr : ChainPointer) :
    getPaymentCredential (CAddress.pointer n p ptr) = Except.error "Unsupported address type" := by
  rcases p with ⟨ph, pt⟩
  cases pt <;> rfl

theorem getPaymentCredential_reward (n : Nat) (s : Credential) :
    getPaymentCredential (CAddress.reward n s) = Except.error "Unsupported address type" := by
  rcases s with ⟨sh, st⟩
  cases st <;> rfl

theorem getPaymentCredential_byron (b : String) :
    getPaymentCredential (CAddress.byron b) = Except.error "Unsupported address type" := rfl

/-! ### Claims -/

/-- Claim C3: with a usage oracle reporting history exactly at payment
credential indices {0,1,2,5} (stake index fixed at 0) — and also at index 10,
to exhibit the cut-off — and `lookAheadCount = 3`, the payment-chain pass
(which probes payment index i+1 at scan index i) finds the addresses at
payment indices 1, 2 and 5 and nothing else.  The loop performs exactly nine
iterations (fuel 8 is insufficient, fuel 9 returns), so the highest payment
index it ever probes is 9 = 5 + 4, and in particular index 10 is never probed
even though the oracle reports history there. -/
theorem claim_C3_gap_boundary :
    discoverAddresses testAccount boundaryProvider 3 paymentScanArgs 8 = none ∧
    discoverAddresses testAccount boundaryProvider 3 paymentScanArgs 9 =
      some boundaryScanResult ∧
    boundaryScanResult.map GroupedAddress.index = [1, 2, 5] ∧
    addressHasTx (testAccount { index := 10, type := AddrChain.External } 0)
      boundaryProvider = true :=
  ⟨by decide, by decide, by decide, by decide⟩

/-- Claim C7: a chain-scanner pass only ever emits addresses whose own usage
check returned true (`totalResultCount > 0`); an address whose check returned
false is never part of the returned list, for any account, provider,
look-ahead, argument map and fuel. -/
theorem claim_C7_only_used_emitted (account : Bip32Account)
    (provider : ChainHistoryProvider) (lookAheadCount : Nat)
    (args : Nat → AddrChain → DeriveAddressArgs) (fuel : Nat)
    (res : List GroupedAddress)
    (h : discoverAddresses account provider lookAheadCount args fuel = some res) :
    ∀ a ∈ res, addressHasTx a provider = true := by
  intro a ha
  rcases discoverAddresses_mem account provider lookAheadCount args fuel res h a ha with
    ⟨i, t, rfl, ht⟩
  exact ht

/-- Witness for C7: the first address found by the boundary-fixture scan indeed
has a positive usage count. -/
theorem claim_C7_only_used_emitted_witness :
    addressHasTx (testAccount { index := 1, type := AddrChain.External } 0)
      boundaryProvider = true :=
  claim_C7_only_used_emitted testAccount boundaryProvider 3 paymentScanArgs 9
    boundaryScanResult (by decide)
    (testAccount { index := 1, type := AddrChain.External } 0) (by decide)

/-- Claim C8: `getPaymentCredential` returns the payment credential for every
enterprise address (key- or script-locked) and every base address (all four
payment/stake credential-type combinations), and throws `Unsupported address
type` for every other kind (pointer, reward, byron); it throws exactly when
the address kind is not among the six supported ones. -/
theorem claim_C8_credential_extractor (a : CAddress) :
    ((∃ c, getPaymentCredential a = Except.ok c) ↔ a.getType ∈ supportedKinds) ∧
    (∀ n p s, a = CAddress.base n p s → getPaymentCredential a = Except.ok p) ∧
    (∀ n p, a = CAddress.enterprise n p → getPaymentCredential a = Except.ok p) ∧
    (a.getType ∉ supportedKinds →
      getPaymentCredential a = Except.error "Unsupported address type") := by
  refine ⟨?_, ?_, ?_, ?_⟩
  · rcases a with ⟨n, ⟨ph, pt⟩, ⟨sh, st⟩⟩ | ⟨n, ⟨ph, pt⟩⟩ | ⟨n, ⟨ph, pt⟩, ptr⟩ | ⟨n, ⟨sh, st⟩⟩ | b
    · cases pt <;> cases st <;>
        simp [getPaymentCredential_base, CAddress.getType, supportedKinds]
    · cases pt <;>
        simp [getPaymentCredential_enterprise, CAddress.getType, supportedKinds]
    · cases pt <;>
        simp [getPaymentCredential_pointer, CAddress.getType, supportedKinds]
    · cases st <;>
        simp [getPaymentCredential_reward, CAddress.getType, supportedKinds]
    · simp [getPaymentCredential_byron, CAddress.getType, supportedKinds]
  · intro n p s hb
    subst hb
    exact getPaymentCredential_base n p s
  · intro n p hb
    subst hb
    exact getPaymentCredential_enterprise n p
  · intro hk
    rcases a with ⟨n, ⟨ph, pt⟩, ⟨sh, st⟩⟩ | ⟨n, ⟨ph, pt⟩⟩ | ⟨n, ⟨ph, pt⟩, ptr⟩ | ⟨n, ⟨sh, st⟩⟩ | b
    · exfalso
      apply hk
      cases pt <;> cases st <;> simp [CAddress.getType, supportedKinds]
    · exfalso
      apply hk
      cases pt <;> simp [CAddress.getType, supportedKinds]
    · exact getPaymentCredential_pointer n ⟨ph, pt⟩ ptr
    · exact getPaymentCredential_reward n ⟨sh, st⟩
    · exact getPaymentCredential_byron b

/-- Witness for C8: a reward address is rejected with the
`Unsupported address type` error. -/
theorem claim_C8_credential_extractor_witness :
    getPaymentCredential
        (CAddress.reward 0 { hash := "stake:0", type := CredentialType.KeyHash }) =
      Except.error "Unsupported address type" :=
  (claim_C8_credential_extractor
    (CAddress.reward 0 { hash := "stake:0", type := CredentialType.KeyHash })).2.2.2
    (by decide)

/-- Claim C6: for every input address of a supported kind (base or enterprise)
and every network id, the programmable-token transform returns a base address
on that network whose payment credential is the ScriptHash credential of the
fixed hard-coded verification script and whose stake credential is the input
address's payment credential; being a pure function of `(address, networkId)`,
it returns the identical output on equal inputs. -/
theorem claim_C6_programmable_transform (a : CAddress) (networkId : Nat)
    (h : (∃ n p s, a = CAddress.base n p s) ∨ (∃ n p, a = CAddress.enterprise n p)) :
    ∃ c, getPaymentCredential a = Except.ok c ∧
      makeProgrammableTokenAddress a networkId =
        Except.ok (CAddress.base networkId
          { hash := scriptHashOf programmableLogicBaseBytes,
            type := CredentialType.ScriptHash } c) ∧
      (∀ a2 n2, a2 = a → n2 = networkId →
        makeProgrammableTokenAddress a2 n2 = makeProgrammableTokenAddress a networkId) := by
  rcases h with ⟨n, p, s, rfl⟩ | ⟨n, p, rfl⟩
  · refine ⟨p, getPaymentCredential_base n p s, ?_, ?_⟩
    · unfold makeProgrammableTokenAddress
      rw [getPaymentCredential_base]
    · intro a2 n2 h1 h2
      rw [h1, h2]
  · refine ⟨p, getPaymentCredential_enterprise n p, ?_, ?_⟩
    · unfold makeProgrammableTokenAddress
      rw [getPaymentCredential_enterprise]
    · intro a2 n2 h1 h2
      rw [h1, h2]

/-- Witness for C6: the transform applied to a concrete enterprise address. -/
theorem claim_C6_programmable_transform_witness :
    ∃ c, getPaymentCredential
        (CAddress.enterprise 1 { hash := "userPay", type := CredentialType.KeyHash }) =
        Except.ok c ∧
      makeProgrammableTokenAddress
          (CAddress.enterprise 1 { hash := "userPay", type := CredentialType.KeyHash }) 1 =
        Except.ok (CAddress.base 1
          { hash := scriptHashOf programmableLogicBaseBytes,
            type := CredentialType.ScriptHash } c) ∧
      (∀ a2 n2, a2 = CAddress.enterprise 1 { hash := "userPay", type := CredentialType.KeyHash } →
        n2 = 1 →
        makeProgrammableTokenAddress a2 n2 =
          makeProgrammableTokenAddress
            (CAddress.enterprise 1 { hash := "userPay", type := CredentialType.KeyHash }) 1) :=
  claim_C6_programmable_transform
    (CAddress.enterprise 1 { hash := "userPay", type := CredentialType.KeyHash }) 1
    (Or.inr ⟨1, { hash := "userPay", type := CredentialType.KeyHash }, rfl⟩)

/-- Claim C10: each programmable-token entry differs from the deduplicated
entry it was built from only in the `index` and `address` fields; `type`,
`networkId`, `accountIndex`, `rewardAccount` and `stakeKeyDerivationPath` are
unchanged copies. -/
theorem claim_C10_frame (addrs prog : List GroupedAddress)
    (h : progTokenAddresses addrs = Except.ok prog) :
    prog.length = addrs.length ∧
    ∀ k, k < addrs.length →
      (prog.getD k dummyGA).type = (addrs.getD k dummyGA).type ∧
      (prog.getD k dummyGA).networkId = (addrs.getD k dummyGA).networkId ∧
      (prog.getD k dummyGA).accountIndex = (addrs.getD k dummyGA).accountIndex ∧
      (prog.getD k dummyGA).rewardAccount = (addrs.getD k dummyGA).rewardAccount ∧
      (prog.getD k dummyGA).stakeKeyDerivationPath =
        (addrs.getD k dummyGA).stakeKeyDerivationPath := by
  rcases progTokenGo_char ((addrs.getLast?).elim 0 GroupedAddress.index) addrs 0 prog h with
    ⟨hlen, hget⟩
  refine ⟨hlen, ?_⟩
  intro k hk
  rcases hget k hk with ⟨pa, _, hr⟩
  rw [hr]
  exact ⟨rfl, rfl, rfl, rfl, rfl⟩

/-- Witness for C10: the programmable copy of the canonical test address keeps
its reward account. -/
theorem claim_C10_frame_witness :
    ([progOfFirst].getD 0 dummyGA).rewardAccount =
      ([testAccount { index := 0, type := AddrChain.External } 0].getD 0
        dummyGA).rewardAccount :=
  ((claim_C10_frame [testAccount { index := 0, type := AddrChain.External } 0]
    [progOfFirst] rfl).2 0 (by decide)).2.2.2.1

/-- Claim C1: full characterization of the chain-scanner loop.  Let `N` be the
first iteration count at which the running gap exceeds `lookAheadCount`
(hypotheses `hstop`/`hmin`; such an `N` exists exactly when the loop
terminates).  Then, with fuel at least `N`, the scan returns the concatenation
over scan indices `0, …, N-1` of the per-index hits — the external address when
its usage check returned true, then the internal one when its check returned
true (both are probed at every index, gap resets to 0 on a used index and
increments otherwise, and the index always increments); with any fuel below `N`
the loop is still running.  Moreover `N ≥ lookAheadCount + 1`, the final
`lookAheadCount + 1` processed indices are all unused, and either
`N = lookAheadCount + 1` (nothing was ever found) or the index right before
that final unused stretch was used — so the loop stops after exactly
`lookAheadCount + 1` consecutive fully-unused positions past the last hit,
including the `lookAheadCount = 0` case. -/
theorem claim_C1_scanner_characterization (account : Bip32Account)
    (provider : ChainHistoryProvider) (lookAheadCount : Nat)
    (args : Nat → AddrChain → DeriveAddressArgs) (N fuel : Nat)
    (hstop : lookAheadCount < gapAfter account provider args N)
    (hmin : ∀ m, m < N → gapAfter account provider args m ≤ lookAheadCount)
    (hfuel : N ≤ fuel) :
    discoverAddresses account provider lookAheadCount args fuel =
      some ((List.range N).flatMap (hitsAt account provider args)) ∧
    (∀ f, f < N → discoverAddresses account provider lookAheadCount args f = none) ∧
    lookAheadCount + 1 ≤ N ∧
    (∀ j, N - (lookAheadCount + 1) ≤ j → j < N →
      usedAt account provider args j = false) ∧
    (N = lookAheadCount + 1 ∨
      usedAt account provider args (N - (lookAheadCount + 2)) = true) := by
  have hN1 : gapAfter account provider args N = lookAheadCount + 1 := by
    rcases N with _ | n
    · rw [gapAfter_zero] at hstop
      omega
    · have h1 := gapAfter_succ_le account provider args n
      have h2 := hmin n (Nat.lt_succ_self n)
      omega
  refine ⟨?_, ?_, ?_, ?_, ?_⟩
  · exact discoverAddresses_char account provider lookAheadCount args N fuel hstop hmin hfuel
  · intro f hf
    exact discoverGo_out_of_fuel account provider lookAheadCount args N hmin f 0 []
      (by omega)
  · have := gapAfter_le account provider args N
    omega
  · intro j h1 h2
    exact gapAfter_unused account provider args N j (by omega) h2
  · rcases gapAfter_last_used account provider args N with h | h
    · left
      omega
    · right
      rw [hN1] at h
      have heq : N - (lookAheadCount + 1) - 1 = N - (lookAheadCount + 2) := by omega
      rw [← heq]
      exact h

/-- Witness for C1: under the empty provider with lookAheadCount 0, the loop
stops after the very first fully-unused position (`N = 1`) and returns the
empty hit list. -/
theorem claim_C1_scanner_characterization_witness :
    0 < gapAfter testAccount emptyProvider paymentScanArgs 1 ∧
    discoverAddresses testAccount emptyProvider 0 paymentScanArgs 1 =
      some ((List.range 1).flatMap (hitsAt testAccount emptyProvider paymentScanArgs)) :=
  ⟨by decide,
    (claim_C1_scanner_characterization testAccount emptyProvider 0 paymentScanArgs 1 1
      (by decide)
      (fun m hm => by
        have hm0 : m = 0 := by omega
        subst hm0
        exact Nat.le_refl 0)
      (Nat.le_refl 1)).1⟩

set_option maxRecDepth 40000 in
/-- Claim C4, counterexample: the full returned list of `discover` can contain
two distinct entries with the same encoded address.  Under `dupProvider` the
deduplicated organic list holds the canonical address and its used stake-1
sibling; both share the payment credential `payment:0e`, so their
programmable-token copies (entries 2 and 3 of the result) encode the SAME
address.  Uniqueness by encoded address therefore does not extend past the
organic, deduplicated part of the list. -/
theorem claim_C4_counterexample :
    discover testAccount dupProvider 0 10 = some (Except.ok dupResult) ∧
    dupResult.get ⟨2, by decide⟩ ≠ dupResult.get ⟨3, by decide⟩ ∧
    (dupResult.get ⟨2, by decide⟩).address = (dupResult.get ⟨3, by decide⟩).address := by
  refine ⟨?_, by decide, by decide⟩
  have h1 : dedupAddresses testAccount dupProvider 0 10 =
      some [testAccount { index := 0, type := AddrChain.External } 0,
            testAccount { index := 0, type := AddrChain.External } 1] := by decide
  have h2 : progTokenAddresses
      [testAccount { index := 0, type := AddrChain.External } 0,
       testAccount { index := 0, type := AddrChain.External } 1] =
      Except.ok [{ testAccount { index := 0, type := AddrChain.External } 0 with
                    index := 1, address := progZeroAddress },
                 { testAccount { index := 0, type := AddrChain.External } 1 with
                    index := 2, address := progZeroAddress }] := by decide
  have hsorted : dupResult.Pairwise (fun a b => sortLE a b = true) := by decide
  rw [discover_eq_of_parts testAccount dupProvider 0 10 _ _ h1 h2]
  show some (Except.ok (dupResult.mergeSort sortLE)) = some (Except.ok dupResult)
  rw [List.mergeSort_of_sorted hsorted]

/-- Claim C4, amended: the concatenation of the canonical, stake-pass and
payment-pass results is deduplicated by encoded address keeping the first
occurrence, so the deduplicated organic list contains no two entries with the
same encoded address; the appended programmable-token entries are NOT covered
by this uniqueness (two organic addresses sharing a payment credential and
network yield the identical programmable address, as the counterexample
shows). -/
theorem claim_C4_amended_dedup_unique (manager : Bip32Account)
    (provider : ChainHistoryProvider) (look fuel : Nat) (addrs : List GroupedAddress)
    (h : dedupAddresses manager provider look fuel = some addrs) :
    addrs.Pairwise (fun a b => a.address ≠ b.address) := by
  rcases dedupAddresses_inv manager provider look fuel addrs h with ⟨st, pay, _, _, rfl⟩
  exact uniqBy_pairwise GroupedAddress.address _

/-- Witness for the amended C4: the deduplicated list of the empty-provider run
is duplicate-free. -/
theorem claim_C4_amended_dedup_unique_witness :
    ([testAccount { index := 0, type := AddrChain.External } 0]).Pairwise
      (fun a b => a.address ≠ b.address) :=
  claim_C4_amended_dedup_unique testAccount emptyProvider 0 6
    [testAccount { index := 0, type := AddrChain.External } 0] rfl

theorem dedupAddresses_head (manager : Bip32Account) (provider : ChainHistoryProvider)
    (look fuel : Nat) (addrs : List GroupedAddress)
    (h : dedupAddresses manager provider look fuel = some addrs) :
    ∃ rest, addrs = manager { index := 0, type := AddrChain.External } 0 :: rest := by
  rcases dedupAddresses_inv manager provider look fuel addrs h with ⟨st, pay, hst, hpay, rfl⟩
  rcases firstAddresses_eq manager provider with ⟨r0, hr0⟩
  rw [hr0, List.cons_append, List.cons_append]
  exact ⟨_, uniqBy_cons _ _ _⟩

theorem dedupAddresses_pairwise_index (manager : Bip32Account)
    (provider : ChainHistoryProvider) (look fuel : Nat) (addrs : List GroupedAddress)
    (hWF : WellFormedAccount manager)
    (h : dedupAddresses manager provider look fuel = some addrs) :
    addrs.Pairwise (fun a b => a.index ≤ b.index) := by
  rcases dedupAddresses_inv manager provider look fuel addrs h with ⟨st, pay, hst, hpay, rfl⟩
  apply List.Pairwise.sublist (uniqBy_sublist _ _)
  have hstIdx : ∀ a ∈ st, a.index = 0 := by
    intro a ha
    rcases discoverAddresses_mem manager provider _ stakeScanArgs fuel st hst a ha with
      ⟨i, t, rfl, -⟩
    exact (hWF _ _).1
  have hpayPw : pay.Pairwise (fun a b => a.index ≤ b.index) :=
    discoverAddresses_pairwise manager provider look paymentScanArgs (fun i => i + 1)
      (fun i t => (hWF _ _).1) (fun i j hij => Nat.add_le_add_right hij 1) fuel pay hpay
  have hfirstIdx : ∀ a ∈ firstAddresses manager provider, a.index = 0 := by
    intro a ha
    rcases mem_firstAddresses manager provider a ha with rfl | rfl
    · exact (hWF _ _).1
    · exact (hWF _ _).1
  rw [List.pairwise_append]
  refine ⟨?_, hpayPw, ?_⟩
  · rw [List.pairwise_append]
    refine ⟨?_, ?_, ?_⟩
    · apply List.pairwise_of_forall_mem_list
      intro a ha b hb
      rw [hfirstIdx a ha, hfirstIdx b hb]
    · apply List.pairwise_of_forall_mem_list
      intro a ha b hb
      rw [hstIdx a ha, hstIdx b hb]
    · intro a ha b hb
      rw [hfirstIdx a ha, hstIdx b hb]
  · intro a ha b hb
    rcases List.mem_append.mp ha with h1 | h1
    · rw [hfirstIdx a h1]
      exact Nat.zero_le _
    · rw [hstIdx a h1]
      exact Nat.zero_le _

/-- Claim C2: in every discovery run over a well-formed account, the
programmable-token list has one entry per deduplicated address, the entry at
(0-based) position k is the programmable copy of the deduplicated entry at k
with `index` set to `maxIndex + (k + 1)` — the maximal organic index plus the
1-based position, so the relative order of the deduplicated list is preserved —
and every programmable entry's index is strictly greater than every organic
entry's index. -/
theorem claim_C2_prog_index_range (manager : Bip32Account)
    (provider : ChainHistoryProvider) (look fuel : Nat)
    (addrs prog : List GroupedAddress)
    (hWF : WellFormedAccount manager)
    (h1 : dedupAddresses manager provider look fuel = some addrs)
    (h2 : progTokenAddresses addrs = Except.ok prog) :
    prog.length = addrs.length ∧
    (∀ k, k < addrs.length →
      ∃ pa, makeProgrammableTokenAddress (addrs.getD k dummyGA).address
          (addrs.getD k dummyGA).networkId = Except.ok pa ∧
        prog.getD k dummyGA =
          { addrs.getD k dummyGA with index := maxIndex addrs + (k + 1), address := pa }) ∧
    (∀ a ∈ addrs, ∀ p ∈ prog, a.index < p.index) := by
  have hpw := dedupAddresses_pairwise_index manager provider look fuel addrs hWF h1
  have hne : addrs ≠ [] := by
    rcases dedupAddresses_head manager provider look fuel addrs h1 with ⟨rest, rfl⟩
    intro hc
    cases hc
  have hlast : (addrs.getLast?).elim 0 GroupedAddress.index = maxIndex addrs :=
    last_eq_maxIndex addrs hne hpw
  rcases progTokenGo_char ((addrs.getLast?).elim 0 GroupedAddress.index) addrs 0 prog h2 with
    ⟨hlen, hget⟩
  refine ⟨hlen, ?_, ?_⟩
  · intro k hk
    rcases hget k hk with ⟨pa, hpa, hr⟩
    refine ⟨pa, hpa, ?_⟩
    rw [hr, hlast]
    have he : maxIndex addrs + (0 + k) + 1 = maxIndex addrs + (k + 1) := by omega
    rw [he]
  · intro a ha p hp
    have h3 := progTokenGo_index_lower ((addrs.getLast?).elim 0 GroupedAddress.index)
      addrs 0 prog h2 p hp
    rw [hlast] at h3
    have h4 := le_maxIndex addrs a ha
    omega

/-- Witness for C2: in the empty-provider run the organic canonical address has
a strictly smaller index than its programmable copy. -/
theorem claim_C2_prog_index_range_witness :
    (testAccount { index := 0, type := AddrChain.External } 0).index < progOfFirst.index :=
  (claim_C2_prog_index_range testAccount emptyProvider 0 6
      [testAccount { index := 0, type := AddrChain.External } 0] [progOfFirst]
      (fun _ _ => ⟨rfl, rfl, rfl⟩) rfl rfl).2.2
    (testAccount { index := 0, type := AddrChain.External } 0) (List.mem_singleton.mpr rfl)
    progOfFirst (List.mem_singleton.mpr rfl)

theorem gapAfter_of_unused (account : Bip32Account) (provider : ChainHistoryProvider)
    (args : Nat → AddrChain → DeriveAddressArgs)
    (h : ∀ i, usedAt account provider args i = false) :
    ∀ n, gapAfter account provider args n = n := by
  intro n
  induction n with
  | zero => rfl
  | succ n ih => simp [gapAfter_succ, h n, ih]

theorem discoverAddresses_of_unused (account : Bip32Account)
    (provider : ChainHistoryProvider) (look : Nat)
    (args : Nat → AddrChain → DeriveAddressArgs) (fuel : Nat)
    (h : ∀ a, addressHasTx a provider = false)
    (hfuel : look + 1 ≤ fuel) :
    discoverAddresses account provider look args fuel = some [] := by
  have hused : ∀ i, usedAt account provider args i = false := by
    intro i
    simp [usedAt, h]
  have hgap := gapAfter_of_unused account provider args hused
  have hchar := discoverAddresses_char account provider look args (look + 1) fuel
    (by rw [hgap]; omega) (by intro m hm; rw [hgap]; omega) hfuel
  rw [hchar]
  have hhits : ∀ i ∈ List.range (look + 1), hitsAt account provider args i = [] := by
    intro i _
    unfold hitsAt
    rw [h, h]
    rfl
  rw [List.flatMap_eq_nil_iff.mpr hhits]

/-- Claim C9: with `lookAheadCount = 0` and a provider reporting no usage for
any query, `discover` returns exactly the canonical external index-0/stake-0
address followed by its programmable-token copy — the internal sibling is
unused, both scanner passes come back empty, and the result has exactly 2
entries (the "2 or 4" disjunction of the spec resolves to 2, since a no-usage
oracle can never mark the internal sibling used). -/
theorem claim_C9_no_usage (manager : Bip32Account) (provider : ChainHistoryProvider)
    (fuel : Nat) (c : Credential)
    (hprov : ∀ q pg, provider q pg = 0)
    (hfuel : 6 ≤ fuel)
    (hc : getPaymentCredential
      (manager { index := 0, type := AddrChain.External } 0).address = Except.ok c) :
    discover manager provider 0 fuel =
      some (Except.ok
        [manager { index := 0, type := AddrChain.External } 0,
         { manager { index := 0, type := AddrChain.External } 0 with
            index := (manager { index := 0, type := AddrChain.External } 0).index + 1,
            address := CAddress.base
              (manager { index := 0, type := AddrChain.External } 0).networkId
              { hash := scriptHashOf programmableLogicBaseBytes,
                type := CredentialType.ScriptHash } c }]) := by
  have hHasTx : ∀ a, addressHasTx a provider = false := by
    intro a
    simp [addressHasTx, hprov]
  have hstake : discoverAddresses manager provider STAKE_KEY_INDEX_LOOKAHEAD
      stakeScanArgs fuel = some [] :=
    discoverAddresses_of_unused manager provider STAKE_KEY_INDEX_LOOKAHEAD stakeScanArgs
      fuel hHasTx (by show 5 + 1 ≤ fuel; omega)
  have hpay : discoverAddresses manager provider 0 paymentScanArgs fuel = some [] :=
    discoverAddresses_of_unused manager provider 0 paymentScanArgs fuel hHasTx (by omega)
  have hfirst : firstAddresses manager provider =
      [manager { index := 0, type := AddrChain.External } 0] := by
    unfold firstAddresses
    rw [hHasTx]
    rfl
  have hdedup : dedupAddresses manager provider 0 fuel =
      some [manager { index := 0, type := AddrChain.External } 0] := by
    unfold dedupAddresses
    rw [hstake, hpay, hfirst]
    rfl
  have hprog : progTokenAddresses [manager { index := 0, type := AddrChain.External } 0] =
      Except.ok [{ manager { index := 0, type := AddrChain.External } 0 with
        index := (manager { index := 0, type := AddrChain.External } 0).index + 1,
        address := CAddress.base
          (manager { index := 0, type := AddrChain.External } 0).networkId
          { hash := scriptHashOf programmableLogicBaseBytes,
            type := CredentialType.ScriptHash } c }] := by
    show progTokenGo _ 0 _ = _
    unfold progTokenGo makeProgrammableTokenAddress
    rw [hc]
    rfl
  have hsorted :
      ([manager { index := 0, type := AddrChain.External } 0,
        { manager { index := 0, type := AddrChain.External } 0 with
          index := (manager { index := 0, type := AddrChain.External } 0).index + 1,
          address := CAddress.base
            (manager { index := 0, type := AddrChain.External } 0).networkId
            { hash := scriptHashOf programmableLogicBaseBytes,
              type := CredentialType.ScriptHash } c }]).Pairwise
        (fun a b => sortLE a b = true) := by
    rw [List.pairwise_pair]
    simp only [sortLE, decide_eq_true_eq]
    left
    exact Nat.lt_succ_self _
  rw [discover_eq_of_parts manager provider 0 fuel _ _ hdedup hprog]
  rw [List.singleton_append]
  rw [List.mergeSort_of_sorted hsorted]

/-- Witness for C9: the no-usage run over the concrete test account. -/
theorem claim_C9_no_usage_witness :
    discover testAccount emptyProvider 0 6 =
      some (Except.ok
        [testAccount { index := 0, type := AddrChain.External } 0,
         { testAccount { index := 0, type := AddrChain.External } 0 with
            index := (testAccount { index := 0, type := AddrChain.External } 0).index + 1,
            address := CAddress.base
              (testAccount { index := 0, type := AddrChain.External } 0).networkId
              { hash := scriptHashOf programmableLogicBaseBytes,
                type := CredentialType.ScriptHash }
              { hash := "payment:0e", type := CredentialType.KeyHash } }]) :=
  claim_C9_no_usage testAccount emptyProvider 6
    { hash := "payment:0e", type := CredentialType.KeyHash }
    (fun _ _ => rfl) (Nat.le_refl 6) rfl

theorem pair_sublist_cons_ne {α : Type} {a b c : α} {t : List α}
    (h : List.Sublist [a, b] (c :: t)) (hne : a ≠ c) : List.Sublist [a, b] t := by
  cases h with
  | cons _ h2 => exact h2
  | cons₂ _ h2 => exact absurd rfl hne

theorem sortLE_min_of_zero (a : GroupedAddress) (h1 : a.index = 0)
    (h2 : a.stakeKeyDerivationPath.index = 0) : ∀ b, sortLE a b = true := by
  intro b
  simp only [sortLE, decide_eq_true_eq]
  omega

theorem mem_key_zero (manager : Bip32Account) (provider : ChainHistoryProvider)
    (look fuel : Nat) (addrs prog : List GroupedAddress)
    (hWF : WellFormedAccount manager)
    (h1 : dedupAddresses manager provider look fuel = some addrs)
    (h2 : progTokenAddresses addrs = Except.ok prog) :
    ∀ x, x ∈ addrs ++ prog → x.index = 0 → x.stakeKeyDerivationPath.index = 0 →
      x = manager { index := 0, type := AddrChain.External } 0 ∨
      x = manager { index := 0, type := AddrChain.Internal } 0 := by
  intro x hx hxi hxs
  rcases List.mem_append.mp hx with hx | hx
  · rcases dedupAddresses_inv manager provider look fuel addrs h1 with
      ⟨st, pay, hst, hpay, haddrU⟩
    rw [haddrU] at hx
    have hxbig : x ∈ (firstAddresses manager provider ++ st) ++ pay :=
      (uniqBy_sublist GroupedAddress.address _).subset hx
    rcases List.mem_append.mp hxbig with hx2 | hx2
    · rcases List.mem_append.mp hx2 with hx3 | hx3
      · exact mem_firstAddresses manager provider x hx3
      · exfalso
        rcases discoverAddresses_mem manager provider _ stakeScanArgs fuel st hst x hx3 with
          ⟨i, t, rfl, -⟩
        have := (hWF (stakeScanArgs i t).paymentKeyDerivationPath
          (stakeScanArgs i t).stakeKeyDerivationIndex).2.2
        simp only [addrAt] at hxs
        rw [hxs] at this
        simp only [stakeScanArgs] at this
        omega
    · exfalso
      rcases discoverAddresses_mem manager provider look paymentScanArgs fuel pay hpay x hx2
        with ⟨i, t, rfl, -⟩
      have := (hWF (paymentScanArgs i t).paymentKeyDerivationPath
        (paymentScanArgs i t).stakeKeyDerivationIndex).1
      simp only [addrAt] at hxi
      rw [hxi] at this
      simp only [paymentScanArgs] at this
      omega
  · exfalso
    have := progTokenGo_index_lower ((addrs.getLast?).elim 0 GroupedAddress.index)
      addrs 0 prog h2 x hx
    omega

theorem head_of_discover_result (manager : Bip32Account) (provider : ChainHistoryProvider)
    (look fuel : Nat) (addrs prog : List GroupedAddress)
    (hWF : WellFormedAccount manager)
    (h1 : dedupAddresses manager provider look fuel = some addrs)
    (h2 : progTokenAddresses addrs = Except.ok prog) :
    ((addrs ++ prog).mergeSort sortLE).head? =
      some (manager { index := 0, type := AddrChain.External } 0) := by
  rcases dedupAddresses_head manager provider look fuel addrs h1 with ⟨rest, haddr⟩
  have hfE0 : (manager { index := 0, type := AddrChain.External } 0).index = 0 :=
    (hWF _ _).1
  have hfEs : (manager { index := 0, type := AddrChain.External } 0
      ).stakeKeyDerivationPath.index = 0 := (hWF _ _).2.2
  have hmin := sortLE_min_of_zero (manager { index := 0, type := AddrChain.External } 0)
    hfE0 hfEs
  have hfEmem : manager { index := 0, type := AddrChain.External } 0 ∈ addrs ++ prog := by
    rw [haddr]
    exact List.mem_append.mpr (Or.inl (List.mem_cons_self _ _))
  have hfEres : manager { index := 0, type := AddrChain.External } 0 ∈
      (addrs ++ prog).mergeSort sortLE := List.mem_mergeSort.mpr hfEmem
  have hsorted := List.sorted_mergeSort sortLE_trans sortLE_total (addrs ++ prog)
  rcases hms : (addrs ++ prog).mergeSort sortLE with _ | ⟨h0, t⟩
  · rw [hms] at hfEres
    cases hfEres
  · rw [hms] at hfEres hsorted
    rw [List.head?_cons]
    by_cases hEq : h0 = manager { index := 0, type := AddrChain.External } 0
    · rw [hEq]
    · exfalso
      have hfEt : manager { index := 0, type := AddrChain.External } 0 ∈ t := by
        rcases List.mem_cons.mp hfEres with he | he
        · exact absurd he.symm hEq
        · exact he
      have hle : sortLE h0 (manager { index := 0, type := AddrChain.External } 0) = true :=
        List.rel_of_pairwise_cons hsorted hfEt
      have h0key : h0.index = 0 ∧ h0.stakeKeyDerivationPath.index = 0 := by
        simp only [sortLE, decide_eq_true_eq] at hle
        omega
      have h0mem : h0 ∈ addrs ++ prog := by
        apply List.mem_mergeSort.mp
        rw [hms]
        exact List.mem_cons_self _ _
      rcases mem_key_zero manager provider look fuel addrs prog hWF h1 h2 h0 h0mem
        h0key.1 h0key.2 with h0E | h0I
      · exact hEq h0E
      · -- the head is the internal sibling: contradicts stability
        have hfInotprog : manager { index := 0, type := AddrChain.Internal } 0 ∉ prog := by
          intro hc
          have hlow := progTokenGo_index_lower
            ((addrs.getLast?).elim 0 GroupedAddress.index) addrs 0 prog h2 _ hc
          have hfI0 : (manager { index := 0, type := AddrChain.Internal } 0).index = 0 :=
            (hWF _ _).1
          omega
        have hfIaddrs : manager { index := 0, type := AddrChain.Internal } 0 ∈ addrs := by
          rcases List.mem_append.mp (h0I ▸ h0mem) with ha | ha
          · exact ha
          · exact absurd ha hfInotprog
        have hfIne : manager { index := 0, type := AddrChain.Internal } 0 ≠
            manager { index := 0, type := AddrChain.External } 0 := by
          intro hc
          have := congrArg GroupedAddress.type hc
          rw [(hWF _ _).2.1, (hWF _ _).2.1] at this
          cases this
        have hfIrest : manager { index := 0, type := AddrChain.Internal } 0 ∈ rest := by
          rw [haddr] at hfIaddrs
          rcases List.mem_cons.mp hfIaddrs with hc | hc
          · exact absurd hc hfIne
          · exact hc
        have hsub : List.Sublist
            [manager { index := 0, type := AddrChain.External } 0,
             manager { index := 0, type := AddrChain.Internal } 0] (addrs ++ prog) := by
          apply List.Sublist.trans ?_ (List.sublist_append_left addrs prog)
          rw [haddr]
          exact List.Sublist.cons₂ _ (List.singleton_sublist.mpr hfIrest)
        have hpairsub : List.Pairwise (fun a b => sortLE a b = true)
            [manager { index := 0, type := AddrChain.External } 0,
             manager { index := 0, type := AddrChain.Internal } 0] :=
          List.pairwise_pair.mpr (hmin _)
        have hstab := List.sublist_mergeSort sortLE_trans sortLE_total hpairsub hsub
        rw [hms, h0I] at hstab
        have hfIt : manager { index := 0, type := AddrChain.Internal } 0 ∈ t :=
          (pair_sublist_cons_ne hstab hfIne.symm).subset
            (List.mem_cons_of_mem _ (List.mem_cons_self _ _))
        -- the internal sibling now occurs twice in the sorted output, but at
        -- most once in its input
        have hcount2 : 2 ≤ ((addrs ++ prog).mergeSort sortLE).count
            (manager { index := 0, type := AddrChain.Internal } 0) := by
          rw [hms, h0I, List.count_cons_self]
          have := List.count_pos_iff.mpr hfIt
          omega
        have hPWaddr : addrs.Pairwise (fun a b => a.address ≠ b.address) := by
          rcases dedupAddresses_inv manager provider look fuel addrs h1 with
            ⟨st, pay, -, -, haddrU⟩
          rw [haddrU]
          exact uniqBy_pairwise GroupedAddress.address _
        have hcount1 : (addrs ++ prog).count
            (manager { index := 0, type := AddrChain.Internal } 0) ≤ 1 := by
          rw [List.count_append]
          have ha := pairwise_key_count_le_one GroupedAddress.address addrs hPWaddr
            (manager { index := 0, type := AddrChain.Internal } 0)
          have hb := List.count_eq_zero.mpr hfInotprog
          omega
        have hperm := List.mergeSort_perm (addrs ++ prog) sortLE
        have := hperm.count_eq (manager { index := 0, type := AddrChain.Internal } 0)
        omega

/-- Claim C5: for every discovery run over a well-formed account, the returned
list is sorted ascending by the pair `(index, stakeKeyDerivationPath.index)`,
and the address derived at (paymentIndex 0, External, stakeIndex 0) is a member
of the result regardless of its usage and is its first element. -/
theorem claim_C5_sorted_and_first (manager : Bip32Account)
    (provider : ChainHistoryProvider) (look fuel : Nat) (res : List GroupedAddress)
    (hWF : WellFormedAccount manager)
    (h : discover manager provider look fuel = some (Except.ok res)) :
    res.Pairwise (fun a b => sortLE a b = true) ∧
    manager { index := 0, type := AddrChain.External } 0 ∈ res ∧
    res.head? = some (manager { index := 0, type := AddrChain.External } 0) := by
  rcases discover_inv manager provider look fuel res h with ⟨addrs, prog, h1, h2, rfl⟩
  have hhead := head_of_discover_result manager provider look fuel addrs prog hWF h1 h2
  refine ⟨List.sorted_mergeSort sortLE_trans sortLE_total (addrs ++ prog), ?_, hhead⟩
  rcases hms : (addrs ++ prog).mergeSort sortLE with _ | ⟨h0, t⟩
  · rw [hms] at hhead
    cases hhead
  · rw [hms] at hhead
    rw [List.head?_cons] at hhead
    rw [Option.some.inj hhead]
    exact List.mem_cons_self _ _

set_option maxRecDepth 40000 in
theorem discover_empty_run :
    discover testAccount emptyProvider 0 6 =
      some (Except.ok [testAccount { index := 0, type := AddrChain.External } 0,
        progOfFirst]) := by
  have h1 : dedupAddresses testAccount emptyProvider 0 6 =
      some [testAccount { index := 0, type := AddrChain.External } 0] := by decide
  have h2 : progTokenAddresses [testAccount { index := 0, type := AddrChain.External } 0] =
      Except.ok [progOfFirst] := by decide
  have hsorted : ([testAccount { index := 0, type := AddrChain.External } 0,
      progOfFirst]).Pairwise (fun a b => sortLE a b = true) := by decide
  rw [discover_eq_of_parts testAccount emptyProvider 0 6 _ _ h1 h2]
  rw [List.singleton_append, List.mergeSort_of_sorted hsorted]

/-- Witness for C5: in the concrete empty-provider run the canonical address
heads the returned list. -/
theorem claim_C5_sorted_and_first_witness :
    ([testAccount { index := 0, type := AddrChain.External } 0, progOfFirst] :
        List GroupedAddress).head? =
      some (testAccount { index := 0, type := AddrChain.External } 0) :=
  (claim_C5_sorted_and_first testAccount emptyProvider 0 6
    [testAccount { index := 0, type := AddrChain.External } 0, progOfFirst]
    (fun _ _ => ⟨rfl, rfl, rfl⟩) discover_empty_run).2.2

end HDDiscovery
